import Mathlib

/-!
Verification of the memoized Collatz sequence engine: a shallow embedding of
the cache (src/core/Cache.js, class LRUCache), the sequence engine
(src/core/CollatzCalculator.js, class CollatzCalculator) and the benchmark
aggregation (src/performance/PerformanceAnalyzer.js), together with proofs of
the behavioural properties claimed for them.

Modelling conventions:
- JS numbers that the engine keeps integral are modelled as `Int` (inputs,
  sequence values) or `Nat` (counters, sizes); the safe-integer ceiling
  `Number.MAX_SAFE_INTEGER = 2^53 - 1` is explicit where the code tests it.
- A JS `Map` is an association list in insertion order: `set` of an existing
  key updates it in place, a new key is appended, `delete` removes it.
- The memory monitor (src/core/MemoryManager.js) samples the process heap; its
  verdicts are modelled as an arbitrary Boolean oracle `mon : Nat → Bool`
  consumed one index per `checkMemory()` call (`true` = memory OK).
- The Collatz loop has no termination proof (that is the Collatz conjecture),
  so the loop takes explicit fuel; exhausting fuel yields the outcome `.out`,
  which never occurs in the JS code and is excluded by the theorems.
- Thrown JS errors become the outcome `.err e` with `e` naming the message.
-/

namespace Collatz

/-- The JS constant `Number.MAX_SAFE_INTEGER`. -/
def MAXSAFE : Nat := 2 ^ 53 - 1

/-- The error taxonomy of the engine: "Input must be a positive integer",
"Integer overflow detected" (from `safeMultiply`), and "Sequence exceeded safe
integer limit" (the step-count guard). -/
inductive CError where
  | invalidInput
  | overflow
  | stepLimit
deriving DecidableEq

/-- A trajectory result `{ steps, sequence, cacheHit }`. -/
structure CResult where
  steps : Nat
  sequence : List Int
  cacheHit : Bool
deriving DecidableEq

/-- Lookup in a JS `Map` modelled as an association list. -/
def assocFind (k : Int) : List (Int × α) → Option α
  | [] => none
  | (k', v) :: t => if k' = k then some v else assocFind k t

/-- JS `Map.prototype.set`: update an existing key in place, append a new one. -/
def mapSet (k : Int) (v : α) : List (Int × α) → List (Int × α)
  | [] => [(k, v)]
  | (k', v') :: t => if k' = k then (k', v) :: t else (k', v') :: mapSet k v t

/-- JS `Map.prototype.delete` (keys are unique, so at most one entry matches). -/
def mapDelete (k : Int) : List (Int × α) → List (Int × α)
  | [] => []
  | (k', v') :: t => if k' = k then t else (k', v') :: mapDelete k t

/-- The key list of a map, in insertion order. -/
def keys (l : List (Int × α)) : List Int := l.map Prod.fst

/-- The cache of `Cache.js`: `maxSize`, the result map `cache`, and the
per-key usage counters `usage`. -/
structure LRUCache where
  maxSize : Nat
  cache : List (Int × CResult)
  usage : List (Int × Nat)
deriving DecidableEq

/-- The `LRUCache` constructor. -/
def newCache (c : Nat) : LRUCache := ⟨c, [], []⟩

/-- Method `updateUsage`: `usage.set(key, (usage.get(key) || 0) + 1)`. -/
def updateUsage (k : Int) (u : List (Int × Nat)) : List (Int × Nat) :=
  mapSet k ((assocFind k u).getD 0 + 1) u

/-- The key of lowest usage count, earliest entry first on ties: the head of
`Array.from(usage.entries()).sort((a, b) => a[1] - b[1])` under the stable
sort the JS spec guarantees. -/
def minUsage : List (Int × Nat) → Option (Int × Nat)
  | [] => none
  | p :: t =>
    match minUsage t with
    | none => some p
    | some q => if q.2 < p.2 then some q else some p

/-- Method `evictLeastUsed`. On an empty `usage` map the JS code would fault
on `[0][0]`; that situation is unreachable whenever the cache is nonempty,
and the model leaves the cache unchanged there. -/
def evictLeastUsed (c : LRUCache) : LRUCache :=
  match minUsage c.usage with
  | none => c
  | some (k, _) => { c with cache := mapDelete k c.cache, usage := mapDelete k c.usage }

/-- Method `get`: on a hit bump the usage counter and return the value; on a
miss return `undefined` and leave the cache untouched. -/
def cacheGet (k : Int) (c : LRUCache) : Option CResult × LRUCache :=
  match assocFind k c.cache with
  | none => (none, c)
  | some v => (some v, { c with usage := updateUsage k c.usage })

/-- Method `set`: when `size >= maxSize` first evict the least-used entry,
then insert the key and bump its usage counter. -/
def cacheSet (k : Int) (v : CResult) (c : LRUCache) : LRUCache :=
  let c1 := if c.maxSize ≤ c.cache.length then evictLeastUsed c else c
  { c1 with cache := mapSet k v c1.cache, usage := updateUsage k c1.usage }

/-- Method `clear`. -/
def cacheClear (c : LRUCache) : LRUCache := { c with cache := [], usage := [] }

/-- The mutable state a `CollatzCalculator` instance threads through its
operations: its cache and how many memory-monitor verdicts it has consumed. -/
structure EngineState where
  lru : LRUCache
  monIdx : Nat
deriving DecidableEq

/-- A freshly constructed calculator: empty cache of capacity `cap`. -/
def initState (cap : Nat) : EngineState := ⟨newCache cap, 0⟩

/-- Consume one memory-monitor verdict without acting on it (the monitor call
in `processBatch`, whose pressure response is only a pause). -/
def stPoll (st : EngineState) : EngineState := { st with monIdx := st.monIdx + 1 }

/-- Clear the engine's cache (`this.cache.clear()`). -/
def stClear (st : EngineState) : EngineState := { st with lru := cacheClear st.lru }

/-- The memory check inside `calculateSequence`: consume a verdict and clear
the cache when the monitor reports pressure. -/
def stMemCheck (mon : Nat → Bool) (st : EngineState) : EngineState :=
  if mon st.monIdx then stPoll st else stClear (stPoll st)

/-- Engine-level cache read. -/
def stGet (k : Int) (st : EngineState) : Option CResult × EngineState :=
  ((cacheGet k st.lru).1, { st with lru := (cacheGet k st.lru).2 })

/-- Engine-level cache write. -/
def stSet (k : Int) (v : CResult) (st : EngineState) : EngineState :=
  { st with lru := cacheSet k v st.lru }

/-- Method `safeMultiply`: the product, or `none` when
`Number.isSafeInteger(a * b)` fails. -/
def safeMultiply (a b : Int) : Option Int :=
  if MAXSAFE < (a * b).natAbs then none else some (a * b)

/-- The outcome of one `calculateSequence` call: a result, a thrown error, or
fuel exhaustion (an artifact of the embedding, never of the JS code). -/
inductive COutcome where
  | ok (r : CResult)
  | err (e : CError)
  | out
deriving DecidableEq

/-- The `while (currentNum !== 1)` loop of `calculateSequence`, carrying the
starting input `n` (for the final cache store), the current value, the step
count, the sequence so far, and the engine state. Per iteration: the periodic
memory check (clearing the cache on pressure), the intermediate cache lookup
when `useCache` (returning the spliced cached tail on a hit), then one Collatz
step with overflow detection, and the step-count guard. On natural termination
the result is stored under `n` when `useCache`. -/
def calcLoop (mon : Nat → Bool) (freq : Nat) (n : Int) (uc : Bool) :
    Nat → Int → Nat → List Int → EngineState → COutcome × EngineState
  | 0, _, _, _, st => (.out, st)
  | fuel + 1, cur, steps, seq, st =>
    if cur = 1 then
      (.ok ⟨steps, seq, false⟩, if uc then stSet n ⟨steps, seq, false⟩ st else st)
    else
      let st1 := if freq ≠ 0 ∧ steps % freq = 0 then stMemCheck mon st else st
      match (if uc then (cacheGet cur st1.lru).1 else none) with
      | some v =>
        (.ok ⟨steps + v.steps, seq ++ v.sequence.drop 1, true⟩,
          { st1 with lru := (cacheGet cur st1.lru).2 })
      | none =>
        if cur % 2 = 0 then
          if MAXSAFE < steps + 1 then (.err .stepLimit, st1)
          else calcLoop mon freq n uc fuel (cur / 2) (steps + 1) (seq ++ [cur / 2]) st1
        else
          match safeMultiply cur 3 with
          | none => (.err .overflow, st1)
          | some p =>
            if MAXSAFE < steps + 1 then (.err .stepLimit, st1)
            else calcLoop mon freq n uc fuel (p + 1) (steps + 1) (seq ++ [p + 1]) st1

/-- Method `calculateSequence(n, useCache)`: validate the input, consult the
cache for `n` (returning `{ ...cached, cacheHit: true }` on a hit), then run
the loop from `currentNum = n`, `steps = 0`, `sequence = [n]`. -/
def calcSeq (mon : Nat → Bool) (freq : Nat) (n : Int) (uc : Bool) (fuel : Nat)
    (st : EngineState) : COutcome × EngineState :=
  if n < 1 then (.err .invalidInput, st)
  else
    match (if uc then (cacheGet n st.lru).1 else none) with
    | some v => (.ok ⟨v.steps, v.sequence, true⟩, { st with lru := (cacheGet n st.lru).2 })
    | none => calcLoop mon freq n uc fuel n 0 [n] st

/-- The purely computational behaviour of the loop with `useCache = false`:
identical arithmetic and identical guards, no cache interaction. The outcome
of an uncached run is exactly this function (`calcLoop_uncached_fst`). -/
def pureLoop : Nat → Int → Nat → List Int → COutcome
  | 0, _, _, _ => .out
  | fuel + 1, cur, steps, seq =>
    if cur = 1 then .ok ⟨steps, seq, false⟩
    else if cur % 2 = 0 then
      if MAXSAFE < steps + 1 then .err .stepLimit
      else pureLoop fuel (cur / 2) (steps + 1) (seq ++ [cur / 2])
    else
      match safeMultiply cur 3 with
      | none => .err .overflow
      | some p =>
        if MAXSAFE < steps + 1 then .err .stepLimit
        else pureLoop fuel (p + 1) (steps + 1) (seq ++ [p + 1])

/-- One row of a `processBatch` result list: `{ number: i, ...result }`. -/
structure BEntry where
  number : Int
  result : CResult
deriving DecidableEq

/-- The loop of `processBatch`, counting down the `cnt` remaining numbers from
`i`: the periodic monitor poll (whose pressure response, a cooperative pause,
has no effect on results), then `calculateSequence(i, useCache)`. A thrown
error is caught and the rows accumulated so far are returned, together with
the caught error; `none` models fuel exhaustion inside a call. -/
def pbLoop (mon : Nat → Bool) (freq : Nat) (uc : Bool) (fuel : Nat) :
    Nat → Int → EngineState → Option (List BEntry × EngineState × Option CError)
  | 0, _, st => some ([], st, none)
  | cnt + 1, i, st =>
    let st1 := if freq ≠ 0 ∧ i % freq = 0 then stPoll st else st
    match calcSeq mon freq i uc fuel st1 with
    | (.out, _) => none
    | (.err e, st2) => some ([], st2, some e)
    | (.ok r, st2) =>
      match pbLoop mon freq uc fuel cnt (i + 1) st2 with
      | none => none
      | some (res, st3, reason) => some (⟨i, r⟩ :: res, st3, reason)

/-- Method `processBatch(start, end, useCache)` over the `end - start + 1`
numbers of the inclusive range. -/
def processBatch (mon : Nat → Bool) (freq : Nat) (uc : Bool) (fuel : Nat)
    (s e : Int) (st : EngineState) : Option (List BEntry × EngineState × Option CError) :=
  pbLoop mon freq uc fuel (e + 1 - s).toNat s st

/-- The generator `generateRange(start, end)`: batches `{ start: i, end:
min(i + batchSize - 1, end) }` for `i = start, start + B, ...` while `i ≤ end`.
For `B = 0` the JS loop would never terminate; the model returns `[]` there,
and every property proved about it assumes `1 ≤ B` as the spec does. -/
def generateRange (B : Nat) (s e : Int) : List (Int × Int) :=
  if h : 1 ≤ B ∧ s ≤ e then
    (s, min (s + (B : Int) - 1) e) :: generateRange B (s + (B : Int)) e
  else []
termination_by (e + 1 - s).toNat
decreasing_by omega

/-- One measured sample as `PerformanceMonitor.measure` returns it to the
analyzer: timing, memory, and the rows of the measured `processBatch` call.
Times and memory figures are real-valued at runtime and modelled as rationals;
no claim depends on float rounding. -/
structure Sample where
  executionTime : ℚ
  memoryUsed : ℚ
  results : List BEntry
deriving DecidableEq

/-- The value `calculateAverageMetrics` builds from the samples of one batch. -/
structure AvgMetrics where
  executionTime : ℚ
  memoryUsed : ℚ
  peakMemoryUsed : ℚ
  cacheHits : ℚ
  results : List BEntry
deriving DecidableEq

/-- The count `s.results?.filter((r) => r.cacheHit)?.length || 0`. -/
def countHits (l : List BEntry) : Nat := (l.filter (fun r => r.result.cacheHit)).length

/-- JS `Math.max(...list)` over the nonempty lists the analyzer feeds it. -/
def maxQ : List ℚ → ℚ
  | [] => 0
  | [x] => x
  | x :: t => max x (maxQ t)

/-- Method `calculateAverageMetrics(samples)`: arithmetic means of time,
memory and per-sample cache-hit counts, the peak memory, and
`samples[0].results` as the representative row list. The harness always
passes `sampleSize ≥ 1` samples; on `[]` the JS code would fault on
`samples[0]` and the model returns the empty row list. -/
def calculateAverageMetrics (samples : List Sample) : AvgMetrics :=
  { executionTime := (samples.map (·.executionTime)).sum / (samples.length : ℚ)
    memoryUsed := (samples.map (·.memoryUsed)).sum / (samples.length : ℚ)
    peakMemoryUsed := maxQ (samples.map (·.memoryUsed))
    cacheHits := (samples.map (fun s => (countHits s.results : ℚ))).sum / (samples.length : ℚ)
    results :=
      match samples with
      | [] => []
      | s :: _ => s.results }

/-- The running per-configuration totals of `compareImplementations`. -/
structure BatchAcc where
  totalTime : ℚ
  memoryProfile : List ℚ
  peakMemory : ℚ
  maxSteps : Nat
  cacheHits : Nat
  averageMemory : ℚ
deriving DecidableEq

/-- The `batchMetrics.results.forEach` body of `updateMetrics`: track the
maximum step count and increment the accumulated hit count once per row with
`cacheHit` true (every row's `steps` is a number, so the `typeof` guard always
passes). -/
def foldHits (acc : BatchAcc) (rs : List BEntry) : BatchAcc :=
  rs.foldl
    (fun m r =>
      { m with
        maxSteps := max m.maxSteps r.result.steps
        cacheHits := if r.result.cacheHit then m.cacheHits + 1 else m.cacheHits })
    acc

/-- Method `updateMetrics(metrics, batchMetrics)`: add the batch time, append
the batch memory to the profile, take the peak, fold the representative row
list into `maxSteps`/`cacheHits`, and recompute the average memory. -/
def updateMetrics (m : BatchAcc) (b : AvgMetrics) : BatchAcc :=
  let m1 :=
    { m with
      totalTime := m.totalTime + b.executionTime
      memoryProfile := m.memoryProfile ++ [b.memoryUsed]
      peakMemory := max m.peakMemory b.peakMemoryUsed }
  let m2 := foldHits m1 b.results
  { m2 with averageMemory := m2.memoryProfile.sum / (m2.memoryProfile.length : ℚ) }

/-- The all-clear memory monitor: every sample is below the threshold. -/
def mon0 : Nat → Bool := fun _ => true

/-- One cache operation of the `EvictionCache` interface. -/
inductive CacheOp where
  | get (k : Int)
  | set (k : Int) (v : CResult)
  | clear
deriving DecidableEq

/-- Apply one cache operation (the value a `get` returns is discarded). -/
def applyOp (c : LRUCache) : CacheOp → LRUCache
  | .get k => (cacheGet k c).2
  | .set k v => cacheSet k v c
  | .clear => cacheClear c

/-- The structural invariant of the cache: capacity at least one, size within
capacity, the result map and the usage map over exactly the same keys, and no
duplicate keys in either (JS `Map` keys are unique). -/
def CInv (c : LRUCache) : Prop :=
  1 ≤ c.maxSize ∧ c.cache.length ≤ c.maxSize ∧
    (∀ a, a ∈ keys c.cache ↔ a ∈ keys c.usage) ∧
    (keys c.cache).Nodup ∧ (keys c.usage).Nodup

/-- The integers `s, s + 1, ..., s + len - 1`. -/
def intRange (s : Int) (len : Nat) : List Int := (List.range len).map (fun j : Nat => s + (j : Int))

/-- The step count of a successful outcome. -/
def outcomeSteps : COutcome → Option Nat
  | .ok r => some r.steps
  | _ => none

/-- The tiling property of `generateRange B s e`: the first batch is
`[s, min (s + B - 1) e]`, every batch is nonempty, consecutive batches are
contiguous (next start = previous end + 1, hence non-overlapping), the union
of the batches is exactly the interval `[s, e]`, every batch except the last
has length exactly `B`, and the last has length at most `B`. -/
def TilesSpec (B : Nat) (s e : Int) : Prop :=
  (generateRange B s e).head? = some (s, min (s + (B : Int) - 1) e) ∧
    (∀ p ∈ generateRange B s e, p.1 ≤ p.2) ∧
    List.Chain' (fun p q : Int × Int => q.1 = p.2 + 1) (generateRange B s e) ∧
    (∀ x : Int, (∃ p ∈ generateRange B s e, p.1 ≤ x ∧ x ≤ p.2) ↔ s ≤ x ∧ x ≤ e) ∧
    (∀ p ∈ (generateRange B s e).dropLast, p.2 + 1 = p.1 + B) ∧
    (∀ p, (generateRange B s e).getLast? = some p → p.2 + 1 ≤ p.1 + B)

/-- A cache entry under key `k` is exactly what the engine computes from `k`:
`k` passed input validation and some fuel lets the raw loop from
`(k, 0, [k])` finish with precisely the stored steps and sequence. -/
def EntrySpec (k : Int) (v : CResult) : Prop :=
  1 ≤ k ∧ ∃ f, pureLoop f k 0 [k] = .ok ⟨v.steps, v.sequence, false⟩

/-- Every entry of the engine's cache satisfies `EntrySpec`. -/
def CacheOK (st : EngineState) : Prop :=
  ∀ k v, (k, v) ∈ st.lru.cache → EntrySpec k v

/-- The engine states reachable from a fresh calculator by its own
operations: `calculateSequence` calls (with any input, flag and fuel, hence
also every mid-loop state, reached by a smaller fuel), monitor polls, and
cache clears (the memory-pressure response and the benchmark reset both
clear). -/
inductive Reachable (mon : Nat → Bool) (freq cap : Nat) : EngineState → Prop
  | init : Reachable mon freq cap (initState cap)
  | calcStep (n : Int) (uc : Bool) (fuel : Nat) (st : EngineState) :
      Reachable mon freq cap st → Reachable mon freq cap (calcSeq mon freq n uc fuel st).2
  | tick (st : EngineState) :
      Reachable mon freq cap st → Reachable mon freq cap (stMemCheck mon st)
  | clearStep (st : EngineState) :
      Reachable mon freq cap st → Reachable mon freq cap (stClear st)

/-! Association-list lemmas for the cache maps. -/

@[simp]
theorem keys_nil : keys ([] : List (Int × α)) = [] := rfl

@[simp]
theorem keys_cons (p : Int × α) (t : List (Int × α)) : keys (p :: t) = p.1 :: keys t := rfl

theorem assocFind_mem {k : Int} {v : α} :
    ∀ {l : List (Int × α)}, assocFind k l = some v → (k, v) ∈ l := by
  intro l
  induction l with
  | nil => intro h; simp [assocFind] at h
  | cons p t ih =>
    obtain ⟨k', v'⟩ := p
    intro h
    simp only [assocFind] at h
    by_cases hk : k' = k
    · subst hk
      rw [if_pos rfl] at h
      cases h
      exact List.mem_cons_self _ _
    · simp only [if_neg hk] at h
      exact List.mem_cons_of_mem _ (ih h)

theorem assocFind_eq_none {k : Int} :
    ∀ {l : List (Int × α)}, assocFind k l = none ↔ k ∉ keys l := by
  intro l
  induction l with
  | nil => simp [assocFind]
  | cons p t ih =>
    obtain ⟨k', v'⟩ := p
    by_cases hk : k' = k
    · simp [assocFind, hk]
    · simp [assocFind, hk, ih, Ne.symm hk]

theorem mem_keys_mapSet {k a : Int} {v : α} :
    ∀ {l : List (Int × α)}, a ∈ keys (mapSet k v l) ↔ a = k ∨ a ∈ keys l := by
  intro l
  induction l with
  | nil => simp [mapSet]
  | cons p t ih =>
    obtain ⟨k', v'⟩ := p
    by_cases hk : k' = k
    · subst hk
      simp [mapSet]
    · simp only [mapSet, if_neg hk, keys_cons, List.mem_cons, ih]
      tauto

theorem nodup_keys_mapSet {k : Int} {v : α} :
    ∀ {l : List (Int × α)}, (keys l).Nodup → (keys (mapSet k v l)).Nodup := by
  intro l
  induction l with
  | nil => intro _; simp [mapSet]
  | cons p t ih =>
    obtain ⟨k', v'⟩ := p
    intro h
    simp only [keys_cons, List.nodup_cons] at h
    by_cases hk : k' = k
    · simp only [mapSet, if_pos hk, keys_cons, List.nodup_cons]
      exact h
    · simp only [mapSet, if_neg hk, keys_cons, List.nodup_cons, mem_keys_mapSet]
      refine ⟨?_, ih h.2⟩
      rintro (rfl | hmem)
      · exact hk rfl
      · exact h.1 hmem

theorem length_mapSet_of_mem {k : Int} {v : α} :
    ∀ {l : List (Int × α)}, k ∈ keys l → (mapSet k v l).length = l.length := by
  intro l
  induction l with
  | nil => intro h; simp at h
  | cons p t ih =>
    obtain ⟨k', v'⟩ := p
    intro h
    by_cases hk : k' = k
    · simp [mapSet, hk]
    · simp only [keys_cons, List.mem_cons] at h
      rcases h with h | h
      · exact absurd h.symm hk
      · simp [mapSet, hk, ih h]

theorem length_mapSet_of_not_mem {k : Int} {v : α} :
    ∀ {l : List (Int × α)}, k ∉ keys l → (mapSet k v l).length = l.length + 1 := by
  intro l
  induction l with
  | nil => intro _; simp [mapSet]
  | cons p t ih =>
    obtain ⟨k', v'⟩ := p
    intro h
    simp only [keys_cons, List.mem_cons] at h
    push_neg at h
    simp [mapSet, Ne.symm h.1, ih h.2]

theorem mem_mapSet {k a : Int} {v b : α} :
    ∀ {l : List (Int × α)}, (a, b) ∈ mapSet k v l → (a = k ∧ b = v) ∨ (a, b) ∈ l := by
  intro l
  induction l with
  | nil => intro h; simp [mapSet] at h; exact Or.inl h
  | cons p t ih =>
    obtain ⟨k', v'⟩ := p
    intro h
    by_cases hk : k' = k
    · simp only [mapSet, if_pos hk, List.mem_cons] at h
      rcases h with h | h
      · cases h; exact Or.inl ⟨hk.symm ▸ rfl, rfl⟩
      · exact Or.inr (List.mem_cons_of_mem _ h)
    · simp only [mapSet, if_neg hk, List.mem_cons] at h
      rcases h with h | h
      · exact Or.inr (h ▸ List.mem_cons_self _ _)
      · rcases ih h with h' | h'
        · exact Or.inl h'
        · exact Or.inr (List.mem_cons_of_mem _ h')

theorem assocFind_mapSet_self (k : Int) (v : α) :
    ∀ (l : List (Int × α)), assocFind k (mapSet k v l) = some v := by
  intro l
  induction l with
  | nil => simp [mapSet, assocFind]
  | cons p t ih =>
    obtain ⟨k', v'⟩ := p
    by_cases hk : k' = k
    · simp [mapSet, assocFind, hk]
    · simp [mapSet, assocFind, hk, ih]

theorem assocFind_mapSet_ne {a k : Int} {v : α} (hak : a ≠ k) :
    ∀ (l : List (Int × α)), assocFind a (mapSet k v l) = assocFind a l := by
  intro l
  induction l with
  | nil => simp [mapSet, assocFind, Ne.symm hak]
  | cons p t ih =>
    obtain ⟨k', v'⟩ := p
    by_cases hk : k' = k
    · subst hk
      simp [mapSet, assocFind, Ne.symm hak]
    · simp only [mapSet, if_neg hk, assocFind]
      by_cases hka : k' = a <;> simp [hka, ih]

theorem assocFind_mapDelete_ne {a m : Int} (ham : a ≠ m) :
    ∀ (l : List (Int × α)), assocFind a (mapDelete m l) = assocFind a l := by
  intro l
  induction l with
  | nil => rfl
  | cons p t ih =>
    obtain ⟨k', v'⟩ := p
    by_cases hk : k' = m
    · subst hk
      simp [mapDelete, assocFind, Ne.symm ham]
    · simp only [mapDelete, if_neg hk, assocFind]
      by_cases hka : k' = a <;> simp [hka, ih]

theorem mapDelete_sublist (k : Int) :
    ∀ (l : List (Int × α)), List.Sublist (mapDelete k l) l := by
  intro l
  induction l with
  | nil => simp [mapDelete]
  | cons p t ih =>
    obtain ⟨k', v'⟩ := p
    by_cases hk : k' = k
    · simpa [mapDelete, hk] using List.sublist_cons_self _ _
    · simpa [mapDelete, hk] using List.Sublist.cons₂ (k', v') ih

theorem keys_mapDelete_sublist (k : Int) (l : List (Int × α)) :
    List.Sublist (keys (mapDelete k l)) (keys l) :=
  (mapDelete_sublist k l).map Prod.fst

theorem mem_keys_mapDelete {k a : Int} :
    ∀ {l : List (Int × α)}, (keys l).Nodup →
      (a ∈ keys (mapDelete k l) ↔ a ∈ keys l ∧ a ≠ k) := by
  intro l
  induction l with
  | nil => intro _; simp [mapDelete]
  | cons p t ih =>
    obtain ⟨k', v'⟩ := p
    intro hnd
    simp only [keys_cons, List.nodup_cons] at hnd
    by_cases hk : k' = k
    · subst hk
      simp only [mapDelete, if_pos rfl, keys_cons, List.mem_cons]
      constructor
      · intro ha
        exact ⟨Or.inr ha, fun hak => hnd.1 (hak ▸ ha)⟩
      · rintro ⟨rfl | ha, hak⟩
        · exact absurd rfl hak
        · exact ha
    · simp only [mapDelete, if_neg hk, keys_cons, List.mem_cons, ih hnd.2]
      constructor
      · rintro (rfl | ⟨ha, hak⟩)
        · exact ⟨Or.inl rfl, fun h => hk h⟩
        · exact ⟨Or.inr ha, hak⟩
      · rintro ⟨rfl | ha, hak⟩
        · exact Or.inl rfl
        · exact Or.inr ⟨ha, hak⟩

theorem length_mapDelete_of_mem {k : Int} :
    ∀ {l : List (Int × α)}, k ∈ keys l → (mapDelete k l).length + 1 = l.length := by
  intro l
  induction l with
  | nil => intro h; simp at h
  | cons p t ih =>
    obtain ⟨k', v'⟩ := p
    intro h
    by_cases hk : k' = k
    · simp [mapDelete, hk]
    · simp only [keys_cons, List.mem_cons] at h
      rcases h with h | h
      · exact absurd h.symm hk
      · simp [mapDelete, hk, ih h]

theorem minUsage_mem : ∀ {l : List (Int × Nat)} {p}, minUsage l = some p → p ∈ l := by
  intro l
  induction l with
  | nil => intro p h; simp [minUsage] at h
  | cons q t ih =>
    intro p h
    rcases hm : minUsage t with _ | r
    · simp only [minUsage, hm] at h
      cases h
      exact List.mem_cons_self _ _
    · simp only [minUsage, hm] at h
      by_cases hr : r.2 < q.2
      · rw [if_pos hr] at h
        cases h
        exact List.mem_cons_of_mem _ (ih hm)
      · rw [if_neg hr] at h
        cases h
        exact List.mem_cons_self _ _

theorem minUsage_isSome {l : List (Int × Nat)} (h : l ≠ []) : ∃ p, minUsage l = some p := by
  cases l with
  | nil => exact absurd rfl h
  | cons q t =>
    simp only [minUsage]
    rcases minUsage t with _ | r
    · exact ⟨q, rfl⟩
    · by_cases hr : r.2 < q.2 <;> simp [hr]

/-! Preservation of the cache invariant, and the capacity bound (claim C3). -/

theorem maxSize_cacheGet (k : Int) (c : LRUCache) : ((cacheGet k c).2).maxSize = c.maxSize := by
  simp only [cacheGet]
  rcases assocFind k c.cache with _ | v <;> rfl

theorem cache_cacheGet (k : Int) (c : LRUCache) : ((cacheGet k c).2).cache = c.cache := by
  simp only [cacheGet]
  rcases assocFind k c.cache with _ | v <;> rfl

theorem cacheGet_fst (k : Int) (c : LRUCache) : (cacheGet k c).1 = assocFind k c.cache := by
  simp only [cacheGet]
  rcases assocFind k c.cache with _ | v <;> rfl

theorem maxSize_cacheSet (k : Int) (v : CResult) (c : LRUCache) :
    (cacheSet k v c).maxSize = c.maxSize := by
  simp only [cacheSet, evictLeastUsed]
  split
  · rcases minUsage c.usage with _ | ⟨m, cnt⟩ <;> rfl
  · rfl

theorem CInv_cacheGet {c : LRUCache} (h : CInv c) (k : Int) : CInv ((cacheGet k c).2) := by
  obtain ⟨h1, h2, h3, h4, h5⟩ := h
  simp only [cacheGet]
  rcases hf : assocFind k c.cache with _ | v
  · exact ⟨h1, h2, h3, h4, h5⟩
  · have hkc : k ∈ keys c.cache := by
      have := assocFind_mem hf
      exact List.mem_map_of_mem Prod.fst this
    have hku : k ∈ keys c.usage := (h3 k).mp hkc
    refine ⟨h1, h2, ?_, h4, nodup_keys_mapSet h5⟩
    intro a
    rw [h3 a]
    unfold updateUsage
    rw [mem_keys_mapSet]
    constructor
    · exact Or.inr
    · rintro (rfl | ha)
      · exact hku
      · exact ha

theorem CInv_cacheSet {c : LRUCache} (h : CInv c) (k : Int) (v : CResult) :
    CInv (cacheSet k v c) := by
  obtain ⟨h1, h2, h3, h4, h5⟩ := h
  by_cases hfull : c.maxSize ≤ c.cache.length
  · -- the eviction branch: the cache is at capacity, so it is nonempty
    have hlen : c.cache.length = c.maxSize := le_antisymm h2 hfull
    have hne : c.cache ≠ [] := by
      intro hnil
      rw [hnil] at hlen
      simp at hlen
      omega
    have hune : c.usage ≠ [] := by
      intro hnil
      cases hc : c.cache with
      | nil => exact hne hc
      | cons p t =>
        have : p.1 ∈ keys c.usage := (h3 p.1).mp (by simp [hc])
        rw [hnil] at this
        simp at this
    obtain ⟨⟨m, cnt⟩, hm⟩ := minUsage_isSome hune
    have hmu : m ∈ keys c.usage := List.mem_map_of_mem Prod.fst (minUsage_mem hm)
    have hmc : m ∈ keys c.cache := (h3 m).mpr hmu
    simp only [cacheSet, if_pos hfull, evictLeastUsed, hm]
    set dc := mapDelete m c.cache with hdc
    set du := mapDelete m c.usage with hdu
    have hdlen : dc.length + 1 = c.cache.length := length_mapDelete_of_mem hmc
    have hdkeys : ∀ a, a ∈ keys dc ↔ a ∈ keys du := by
      intro a
      rw [hdc, hdu, mem_keys_mapDelete h4, mem_keys_mapDelete h5, h3 a]
    have hdnd : (keys dc).Nodup := (keys_mapDelete_sublist m c.cache).nodup h4
    have hdnd' : (keys du).Nodup := (keys_mapDelete_sublist m c.usage).nodup h5
    refine ⟨h1, ?_, ?_, nodup_keys_mapSet hdnd, nodup_keys_mapSet hdnd'⟩
    · show (mapSet k v dc).length ≤ c.maxSize
      by_cases hk : k ∈ keys dc
      · rw [length_mapSet_of_mem hk]
        omega
      · rw [length_mapSet_of_not_mem hk]
        omega
    · intro a
      unfold updateUsage
      rw [mem_keys_mapSet, mem_keys_mapSet, hdkeys a]
  · simp only [cacheSet, if_neg hfull]
    refine ⟨h1, ?_, ?_, nodup_keys_mapSet h4, nodup_keys_mapSet h5⟩
    · show (mapSet k v c.cache).length ≤ c.maxSize
      by_cases hk : k ∈ keys c.cache
      · rw [length_mapSet_of_mem hk]
        omega
      · rw [length_mapSet_of_not_mem hk]
        omega
    · intro a
      unfold updateUsage
      rw [mem_keys_mapSet, mem_keys_mapSet, h3 a]

theorem CInv_cacheClear {c : LRUCache} (h : CInv c) : CInv (cacheClear c) := by
  obtain ⟨h1, _, _, _, _⟩ := h
  exact ⟨h1, by simp [cacheClear], by simp [cacheClear, keys], by simp [cacheClear, keys],
    by simp [cacheClear, keys]⟩

theorem CInv_applyOp {c : LRUCache} (h : CInv c) (op : CacheOp) : CInv (applyOp c op) := by
  cases op with
  | get k => exact CInv_cacheGet h k
  | set k v => exact CInv_cacheSet h k v
  | clear => exact CInv_cacheClear h

theorem maxSize_applyOp (c : LRUCache) (op : CacheOp) : (applyOp c op).maxSize = c.maxSize := by
  cases op with
  | get k => exact maxSize_cacheGet k c
  | set k v => exact maxSize_cacheSet k v c
  | clear => rfl

theorem CInv_foldl {c : LRUCache} (h : CInv c) :
    ∀ ops : List CacheOp, CInv (ops.foldl applyOp c) ∧ (ops.foldl applyOp c).maxSize = c.maxSize := by
  intro ops
  induction ops generalizing c with
  | nil => exact ⟨h, rfl⟩
  | cons op t ih =>
    simp only [List.foldl_cons]
    obtain ⟨hi, hs⟩ := ih (CInv_applyOp h op)
    exact ⟨hi, hs.trans (maxSize_applyOp c op)⟩

/-- Claim C3: starting from a fresh `EvictionCache` of capacity `C ≥ 1`, after
any finite sequence of `get`, `set` and `clear` operations the cache holds at
most `C` entries. -/
theorem C3_size_le_capacity (C : Nat) (hC : 1 ≤ C) (ops : List CacheOp) :
    ((ops.foldl applyOp (newCache C)).cache).length ≤ C := by
  have hinv : CInv (newCache C) := by
    refine ⟨hC, ?_, ?_, ?_, ?_⟩ <;> simp [newCache, keys]
  obtain ⟨⟨_, hlen, _, _, _⟩, hsz⟩ := CInv_foldl hinv ops
  rw [hsz] at hlen
  exact hlen

/-- Witness for C3: capacity 1 with a five-operation history. -/
theorem C3_size_le_capacity_w :
    1 ≤ 1 ∧
      ((([CacheOp.set 1 ⟨0, [1], false⟩, CacheOp.set 2 ⟨0, [1], false⟩, CacheOp.get 2,
          CacheOp.clear, CacheOp.set 3 ⟨0, [1], false⟩]).foldl applyOp (newCache 1)).cache).length ≤ 1 :=
  ⟨by decide,
    C3_size_le_capacity 1 (by decide)
      [CacheOp.set 1 ⟨0, [1], false⟩, CacheOp.set 2 ⟨0, [1], false⟩, CacheOp.get 2,
        CacheOp.clear, CacheOp.set 3 ⟨0, [1], false⟩]⟩

/-! Claim C5: what `set` does at capacity. -/

/-- Counterexample to claim C5: on a capacity-2 cache holding keys 1 (usage 2)
and 2 (usage 1), `set(1, r)` — whose key 1 is already present — still evicts,
and the evicted entry is key 2: afterwards the cache has a single entry and
key 2 is gone, where the claim requires an overwrite with no eviction. -/
theorem C5_cex_evicts_on_present_key :
    (cacheSet 1 ⟨0, [1], false⟩
        (cacheSet 2 ⟨0, [1], false⟩
          ((cacheGet 1 (cacheSet 1 ⟨0, [1], false⟩ (newCache 2))).2))).cache.length = 1 ∧
      assocFind 2
          (cacheSet 1 ⟨0, [1], false⟩
            (cacheSet 2 ⟨0, [1], false⟩
              ((cacheGet 1 (cacheSet 1 ⟨0, [1], false⟩ (newCache 2))).2))).cache = none ∧
      assocFind 1
          (cacheSet 2 ⟨0, [1], false⟩
            ((cacheGet 1 (cacheSet 1 ⟨0, [1], false⟩ (newCache 2))).2)).cache =
        some ⟨0, [1], false⟩ := by
  decide

/-- Claim C5 as amended: on a well-formed cache at capacity (`size() >= C`,
`C >= 1`), `set(key, value)` always evicts the least-used entry (earliest
inserted on ties) before inserting, regardless of whether `key` is already
present: `key` ends up stored, the least-used key `m` loses its old entry
whenever it differs from `key`, every other entry is untouched, and the size
shrinks by one exactly when `key` was already present and distinct from `m`
(for a new `key`, or for `key = m`, the eviction and the insertion cancel and
the size is unchanged). -/
theorem C5_evict_when_full (c : LRUCache) (k : Int) (v : CResult)
    (hnd : (keys c.cache).Nodup)
    (hkeys : ∀ a, a ∈ keys c.cache ↔ a ∈ keys c.usage)
    (hcap : 1 ≤ c.maxSize) (hfull : c.maxSize ≤ c.cache.length) :
    ∃ m cnt, minUsage c.usage = some (m, cnt) ∧ m ∈ keys c.cache ∧
      assocFind k (cacheSet k v c).cache = some v ∧
      (m ≠ k → assocFind m (cacheSet k v c).cache = none) ∧
      (∀ a, a ≠ k → a ≠ m → assocFind a (cacheSet k v c).cache = assocFind a c.cache) ∧
      (k ∈ keys c.cache ∧ m ≠ k → (cacheSet k v c).cache.length + 1 = c.cache.length) ∧
      (k ∉ keys c.cache ∨ m = k → (cacheSet k v c).cache.length = c.cache.length) := by
  have hne : c.cache ≠ [] := by
    intro hnil
    rw [hnil] at hfull
    simp at hfull
    omega
  have hune : c.usage ≠ [] := by
    intro hnil
    cases hc : c.cache with
    | nil => exact hne hc
    | cons p t =>
      have hp : p.1 ∈ keys c.usage := (hkeys p.1).mp (by simp [hc])
      rw [hnil] at hp
      simp at hp
  obtain ⟨⟨m, cnt⟩, hm⟩ := minUsage_isSome hune
  have hmu : m ∈ keys c.usage := List.mem_map_of_mem Prod.fst (minUsage_mem hm)
  have hmc : m ∈ keys c.cache := (hkeys m).mpr hmu
  refine ⟨m, cnt, hm, hmc, ?_⟩
  simp only [cacheSet, if_pos hfull, evictLeastUsed, hm]
  set dc := mapDelete m c.cache with hdc
  have hdlen : dc.length + 1 = c.cache.length := length_mapDelete_of_mem hmc
  have hmd : m ∉ keys dc := by
    rw [hdc, mem_keys_mapDelete hnd]
    rintro ⟨_, h⟩
    exact h rfl
  refine ⟨assocFind_mapSet_self k v dc, ?_, ?_, ?_, ?_⟩
  · intro hmk
    rw [assocFind_eq_none, mem_keys_mapSet]
    rintro (rfl | h)
    · exact hmk rfl
    · exact hmd h
  · intro a hak ham
    rw [assocFind_mapSet_ne hak, hdc, assocFind_mapDelete_ne ham]
  · rintro ⟨hkmem, hmk⟩
    have hkd : k ∈ keys dc := by
      rw [hdc, mem_keys_mapDelete hnd]
      exact ⟨hkmem, fun h => hmk (h ▸ rfl)⟩
    rw [length_mapSet_of_mem hkd]
    exact hdlen
  · intro hor
    have hkd : k ∉ keys dc := by
      rw [hdc, mem_keys_mapDelete hnd]
      rintro ⟨hk1, hk2⟩
      rcases hor with h | h
      · exact h hk1
      · exact hk2 h.symm
    rw [length_mapSet_of_not_mem hkd]
    omega

/-- Witness for the amended C5: a full capacity-1 cache holding key 7, and a
`set` of the new key 9 — the eviction fires although the key is not present. -/
theorem C5_evict_when_full_w :
    (keys (LRUCache.mk 1 [(7, ⟨0, [1], false⟩)] [(7, 1)]).cache).Nodup ∧
      (∀ a : Int,
        a ∈ keys (LRUCache.mk 1 [(7, ⟨0, [1], false⟩)] [(7, 1)]).cache ↔
          a ∈ keys (LRUCache.mk 1 [(7, ⟨0, [1], false⟩)] [(7, 1)]).usage) ∧
      1 ≤ (LRUCache.mk 1 [(7, ⟨0, [1], false⟩)] [(7, 1)]).maxSize ∧
      (LRUCache.mk 1 [(7, ⟨0, [1], false⟩)] [(7, 1)]).maxSize ≤
        (LRUCache.mk 1 [(7, ⟨0, [1], false⟩)] [(7, 1)]).cache.length ∧
      (∃ m cnt,
        minUsage (LRUCache.mk 1 [(7, ⟨0, [1], false⟩)] [(7, 1)]).usage = some (m, cnt) ∧
          m ∈ keys (LRUCache.mk 1 [(7, ⟨0, [1], false⟩)] [(7, 1)]).cache ∧
          assocFind 9
              (cacheSet 9 ⟨1, [2, 1], false⟩
                (LRUCache.mk 1 [(7, ⟨0, [1], false⟩)] [(7, 1)])).cache =
            some ⟨1, [2, 1], false⟩ ∧
          (m ≠ 9 →
            assocFind m
                (cacheSet 9 ⟨1, [2, 1], false⟩
                  (LRUCache.mk 1 [(7, ⟨0, [1], false⟩)] [(7, 1)])).cache = none) ∧
          (∀ a, a ≠ 9 → a ≠ m →
            assocFind a
                (cacheSet 9 ⟨1, [2, 1], false⟩
                  (LRUCache.mk 1 [(7, ⟨0, [1], false⟩)] [(7, 1)])).cache =
              assocFind a (LRUCache.mk 1 [(7, ⟨0, [1], false⟩)] [(7, 1)]).cache) ∧
          ((9 : Int) ∈ keys (LRUCache.mk 1 [(7, ⟨0, [1], false⟩)] [(7, 1)]).cache ∧ m ≠ 9 →
            (cacheSet 9 ⟨1, [2, 1], false⟩
                (LRUCache.mk 1 [(7, ⟨0, [1], false⟩)] [(7, 1)])).cache.length + 1 =
              (LRUCache.mk 1 [(7, ⟨0, [1], false⟩)] [(7, 1)]).cache.length) ∧
          ((9 : Int) ∉ keys (LRUCache.mk 1 [(7, ⟨0, [1], false⟩)] [(7, 1)]).cache ∨ m = 9 →
            (cacheSet 9 ⟨1, [2, 1], false⟩
                (LRUCache.mk 1 [(7, ⟨0, [1], false⟩)] [(7, 1)])).cache.length =
              (LRUCache.mk 1 [(7, ⟨0, [1], false⟩)] [(7, 1)]).cache.length)) :=
  ⟨by decide, fun _ => Iff.rfl, by decide, by decide,
    C5_evict_when_full (LRUCache.mk 1 [(7, ⟨0, [1], false⟩)] [(7, 1)]) 9 ⟨1, [2, 1], false⟩
      (by decide) (fun _ => Iff.rfl) (by decide) (by decide)⟩

/-! Lemmas about the raw Collatz loop `pureLoop`. -/

theorem head?_append_left {l : List Int} (l2 : List Int) (h : l ≠ []) :
    (l ++ l2).head? = l.head? :=
  List.head?_append_of_ne_nil l h

theorem getLast?_append_right {l t : List Int} (h : t ≠ []) :
    (l ++ t).getLast? = t.getLast? := by
  rw [List.getLast?_append]
  cases ht : t.getLast? with
  | none => exact absurd (List.getLast?_eq_none_iff.mp ht) h
  | some a => rfl

/-- A successful raw run extends the accumulated sequence by a tail whose
length is the number of steps taken, ends at 1, and keeps the head. -/
theorem pure_inv :
    ∀ (fuel : Nat) (cur : Int) (steps : Nat) (seq : List Int) (r : CResult),
      pureLoop fuel cur steps seq = .ok r → seq.getLast? = some cur →
      ∃ t, r.sequence = seq ++ t ∧ r.steps = steps + t.length ∧ r.cacheHit = false ∧
        r.sequence.getLast? = some 1 ∧ r.sequence.head? = seq.head? := by
  intro fuel
  induction fuel with
  | zero => intro cur steps seq r h _; exact absurd h (by simp [pureLoop])
  | succ f ih =>
    intro cur steps seq r h hlast
    have hne : seq ≠ [] := by
      intro hs
      rw [hs] at hlast
      simp at hlast
    by_cases h1 : cur = 1
    · subst h1
      simp only [pureLoop, if_pos rfl] at h
      cases h
      exact ⟨[], by simp, by simp, rfl, by simpa using hlast, rfl⟩
    · simp only [pureLoop, if_neg h1] at h
      by_cases h2 : cur % 2 = 0
      · rw [if_pos h2] at h
        have hg : ¬MAXSAFE < steps + 1 := by
          intro hg
          rw [if_pos hg] at h
          exact COutcome.noConfusion h
        rw [if_neg hg] at h
        obtain ⟨t, ht1, ht2, ht3, ht4, ht5⟩ := ih _ _ _ _ h (List.getLast?_concat _)
        refine ⟨cur / 2 :: t, ?_, ?_, ht3, ht4, ?_⟩
        · rw [ht1, List.append_assoc]
          rfl
        · rw [ht2]
          simp only [List.length_cons]
          omega
        · rw [ht5]
          exact head?_append_left _ hne
      · rw [if_neg h2] at h
        rcases hsm : safeMultiply cur 3 with _ | p
        · simp only [hsm] at h
          exact absurd h (fun hh => COutcome.noConfusion hh)
        · simp only [hsm] at h
          have hg : ¬MAXSAFE < steps + 1 := by
            intro hg
            rw [if_pos hg] at h
            exact COutcome.noConfusion h
          rw [if_neg hg] at h
          obtain ⟨t, ht1, ht2, ht3, ht4, ht5⟩ := ih _ _ _ _ h (List.getLast?_concat _)
          refine ⟨(p + 1) :: t, ?_, ?_, ht3, ht4, ?_⟩
          · rw [ht1, List.append_assoc]
            rfl
          · rw [ht2]
            simp only [List.length_cons]
            omega
          · rw [ht5]
            exact head?_append_left _ hne

/-- Determinism of the raw loop: two successful runs from the same current
value append the same tail and take the same number of further steps,
whatever their accumulated prefixes and step counts. -/
theorem pure_det :
    ∀ (f1 f2 : Nat) (cur : Int) (s1 s2 : Nat) (q1 q2 : List Int) (r1 r2 : CResult),
      pureLoop f1 cur s1 q1 = .ok r1 → pureLoop f2 cur s2 q2 = .ok r2 →
      ∃ t, r1.sequence = q1 ++ t ∧ r2.sequence = q2 ++ t ∧
        r1.steps = s1 + t.length ∧ r2.steps = s2 + t.length := by
  intro f1
  induction f1 with
  | zero => intro f2 cur s1 s2 q1 q2 r1 r2 h1 _; exact absurd h1 (by simp [pureLoop])
  | succ f ih =>
    intro f2 cur s1 s2 q1 q2 r1 r2 h1 h2
    cases f2 with
    | zero => exact absurd h2 (by simp [pureLoop])
    | succ g =>
      by_cases hc : cur = 1
      · subst hc
        simp only [pureLoop, if_pos rfl] at h1 h2
        cases h1
        cases h2
        exact ⟨[], by simp, by simp, by simp, by simp⟩
      · simp only [pureLoop, if_neg hc] at h1 h2
        by_cases h2e : cur % 2 = 0
        · rw [if_pos h2e] at h1 h2
          have g1 : ¬MAXSAFE < s1 + 1 := by
            intro hg
            rw [if_pos hg] at h1
            exact COutcome.noConfusion h1
          have g2 : ¬MAXSAFE < s2 + 1 := by
            intro hg
            rw [if_pos hg] at h2
            exact COutcome.noConfusion h2
          rw [if_neg g1] at h1
          rw [if_neg g2] at h2
          obtain ⟨t, a1, a2, a3, a4⟩ := ih g _ _ _ _ _ _ _ h1 h2
          refine ⟨cur / 2 :: t, ?_, ?_, ?_, ?_⟩
          · rw [a1, List.append_assoc]; rfl
          · rw [a2, List.append_assoc]; rfl
          · rw [a3]; simp only [List.length_cons]; omega
          · rw [a4]; simp only [List.length_cons]; omega
        · rw [if_neg h2e] at h1 h2
          rcases hsm : safeMultiply cur 3 with _ | p
          · simp only [hsm] at h1
            exact absurd h1 (fun hh => COutcome.noConfusion hh)
          · simp only [hsm] at h1 h2
            have g1 : ¬MAXSAFE < s1 + 1 := by
              intro hg
              rw [if_pos hg] at h1
              exact COutcome.noConfusion h1
            have g2 : ¬MAXSAFE < s2 + 1 := by
              intro hg
              rw [if_pos hg] at h2
              exact COutcome.noConfusion h2
            rw [if_neg g1] at h1
            rw [if_neg g2] at h2
            obtain ⟨t, a1, a2, a3, a4⟩ := ih g _ _ _ _ _ _ _ h1 h2
            refine ⟨(p + 1) :: t, ?_, ?_, ?_, ?_⟩
            · rw [a1, List.append_assoc]; rfl
            · rw [a2, List.append_assoc]; rfl
            · rw [a3]; simp only [List.length_cons]; omega
            · rw [a4]; simp only [List.length_cons]; omega

/-! The uncached run: outcome is the raw loop, and the cache is untouched
except for pressure-triggered clears. -/

theorem stMemCheck_lru (mon : Nat → Bool) (st : EngineState) :
    (stMemCheck mon st).lru = st.lru ∨ (stMemCheck mon st).lru = cacheClear st.lru := by
  unfold stMemCheck
  by_cases h : mon st.monIdx
  · rw [if_pos h]
    exact Or.inl rfl
  · rw [if_neg h]
    exact Or.inr rfl

theorem stMemCheck_lru_ok {mon : Nat → Bool} (hmon : ∀ i, mon i = true) (st : EngineState) :
    (stMemCheck mon st).lru = st.lru := by
  unfold stMemCheck
  rw [if_pos (hmon st.monIdx)]
  rfl

theorem cacheClear_idem (c : LRUCache) : cacheClear (cacheClear c) = cacheClear c := rfl

theorem calcLoop_uncached_fst (mon : Nat → Bool) (freq : Nat) (n : Int) :
    ∀ (fuel : Nat) (cur : Int) (steps : Nat) (seq : List Int) (st : EngineState),
      (calcLoop mon freq n false fuel cur steps seq st).1 = pureLoop fuel cur steps seq := by
  intro fuel
  induction fuel with
  | zero => intros; rfl
  | succ f ih =>
    intro cur steps seq st
    by_cases hc : cur = 1
    · subst hc
      simp [calcLoop, pureLoop]
    · simp only [calcLoop, pureLoop, if_neg hc, Bool.false_eq_true, if_false]
      by_cases h2 : cur % 2 = 0
      · rw [if_pos h2, if_pos h2]
        by_cases hg : MAXSAFE < steps + 1
        · rw [if_pos hg, if_pos hg]
        · rw [if_neg hg, if_neg hg]
          exact ih _ _ _ _
      · rw [if_neg h2, if_neg h2]
        rcases hsm : safeMultiply cur 3 with _ | p
        · simp only [hsm]
        · simp only [hsm]
          by_cases hg : MAXSAFE < steps + 1
          · rw [if_pos hg, if_pos hg]
          · rw [if_neg hg, if_neg hg]
            exact ih _ _ _ _

theorem calcLoop_uncached_lru (mon : Nat → Bool) (freq : Nat) (n : Int) :
    ∀ (fuel : Nat) (cur : Int) (steps : Nat) (seq : List Int) (st : EngineState),
      (calcLoop mon freq n false fuel cur steps seq st).2.lru = st.lru ∨
        (calcLoop mon freq n false fuel cur steps seq st).2.lru = cacheClear st.lru := by
  intro fuel
  induction fuel with
  | zero => intros; exact Or.inl rfl
  | succ f ih =>
    intro cur steps seq st
    by_cases hc : cur = 1
    · subst hc
      refine Or.inl ?_
      simp [calcLoop]
    · simp only [calcLoop, if_neg hc, Bool.false_eq_true, if_false]
      set st1 := if freq ≠ 0 ∧ steps % freq = 0 then stMemCheck mon st else st with hst1
      have hst1c : st1.lru = st.lru ∨ st1.lru = cacheClear st.lru := by
        rw [hst1]
        by_cases hmc : freq ≠ 0 ∧ steps % freq = 0
        · rw [if_pos hmc]
          exact stMemCheck_lru mon st
        · rw [if_neg hmc]
          exact Or.inl rfl
      have step : ∀ st2 : EngineState,
          st2.lru = st1.lru ∨ st2.lru = cacheClear st1.lru →
          st2.lru = st.lru ∨ st2.lru = cacheClear st.lru := by
        intro st2 h
        rcases h with h | h <;> rcases hst1c with h' | h'
        · rw [h, h']; exact Or.inl rfl
        · rw [h, h']; exact Or.inr rfl
        · rw [h, h']; exact Or.inr rfl
        · rw [h, h', cacheClear_idem]; exact Or.inr rfl
      by_cases h2 : cur % 2 = 0
      · rw [if_pos h2]
        by_cases hg : MAXSAFE < steps + 1
        · rw [if_pos hg]
          exact step _ (Or.inl rfl)
        · rw [if_neg hg]
          exact step _ (ih _ _ _ _)
      · rw [if_neg h2]
        rcases hsm : safeMultiply cur 3 with _ | p
        · simp only [hsm]
          exact step _ (Or.inl rfl)
        · simp only [hsm]
          by_cases hg : MAXSAFE < steps + 1
          · rw [if_pos hg]
            exact step _ (Or.inl rfl)
          · rw [if_neg hg]
            exact step _ (ih _ _ _ _)

theorem calcLoop_uncached_lru_ok {mon : Nat → Bool} (hmon : ∀ i, mon i = true)
    (freq : Nat) (n : Int) :
    ∀ (fuel : Nat) (cur : Int) (steps : Nat) (seq : List Int) (st : EngineState),
      (calcLoop mon freq n false fuel cur steps seq st).2.lru = st.lru := by
  intro fuel
  induction fuel with
  | zero => intros; rfl
  | succ f ih =>
    intro cur steps seq st
    by_cases hc : cur = 1
    · subst hc
      simp [calcLoop]
    · simp only [calcLoop, if_neg hc, Bool.false_eq_true, if_false]
      set st1 := if freq ≠ 0 ∧ steps % freq = 0 then stMemCheck mon st else st with hst1
      have hst1c : st1.lru = st.lru := by
        rw [hst1]
        by_cases hmc : freq ≠ 0 ∧ steps % freq = 0
        · rw [if_pos hmc]
          exact stMemCheck_lru_ok hmon st
        · rw [if_neg hmc]
      by_cases h2 : cur % 2 = 0
      · rw [if_pos h2]
        by_cases hg : MAXSAFE < steps + 1
        · rw [if_pos hg]
          exact hst1c
        · rw [if_neg hg]
          rw [ih _ _ _ _]
          exact hst1c
      · rw [if_neg h2]
        rcases hsm : safeMultiply cur 3 with _ | p
        · simp only [hsm]
          exact hst1c
        · simp only [hsm]
          by_cases hg : MAXSAFE < steps + 1
          · rw [if_pos hg]
            exact hst1c
          · rw [if_neg hg]
            rw [ih _ _ _ _]
            exact hst1c

theorem calcSeq_uncached_fst (mon : Nat → Bool) (freq : Nat) (n : Int) (fuel : Nat)
    (st : EngineState) (hn : ¬n < 1) :
    (calcSeq mon freq n false fuel st).1 = pureLoop fuel n 0 [n] := by
  simp only [calcSeq, if_neg hn, Bool.false_eq_true, if_false]
  exact calcLoop_uncached_fst mon freq n fuel n 0 [n] st

/-- Claim C10: an uncached `calculateSequence` run never writes an entry,
never bumps a usage counter and never removes a single entry: its cache
(entries and counters alike) is afterwards either exactly as before or fully
cleared by the pressure response, and when the memory monitor reports OK on
every poll it is exactly as before. -/
theorem C10_uncached_frame (mon : Nat → Bool) (freq : Nat) (n : Int) (fuel : Nat)
    (st : EngineState) :
    ((calcSeq mon freq n false fuel st).2.lru = st.lru ∨
      (calcSeq mon freq n false fuel st).2.lru = cacheClear st.lru) ∧
      ((∀ i, mon i = true) → (calcSeq mon freq n false fuel st).2.lru = st.lru) := by
  constructor
  · by_cases hn : n < 1
    · simp only [calcSeq, if_pos hn]
      exact Or.inl (by trivial)
    · simp only [calcSeq, if_neg hn, Bool.false_eq_true, if_false]
      exact calcLoop_uncached_lru mon freq n fuel n 0 [n] st
  · intro hmon
    by_cases hn : n < 1
    · simp only [calcSeq, if_pos hn]
    · simp only [calcSeq, if_neg hn, Bool.false_eq_true, if_false]
      exact calcLoop_uncached_lru_ok hmon freq n fuel n 0 [n] st

/-- Witness for C10 at a concrete uncached run under the all-clear monitor. -/
theorem C10_uncached_frame_w :
    ((calcSeq mon0 1000 6 false 20 (initState 40000)).2.lru = (initState 40000).lru ∨
      (calcSeq mon0 1000 6 false 20 (initState 40000)).2.lru = cacheClear (initState 40000).lru) ∧
      (calcSeq mon0 1000 6 false 20 (initState 40000)).2.lru = (initState 40000).lru := by
  have h := C10_uncached_frame mon0 1000 6 20 (initState 40000)
  exact ⟨h.1, h.2 (fun _ => rfl)⟩

/-- Claim C9: with an empty cache and the all-clear monitor,
`calculateSequence(27, false)` succeeds with 111 steps. -/
theorem C9_reference_value :
    outcomeSteps (calcSeq mon0 1000 27 false 200 (initState 40000)).1 = some 111 := by
  decide

/-- Claim C6: at any loop point whose current value is odd with `3 * current`
beyond the safe-integer ceiling, and whose cache state satisfies the engine
invariant, the step fails with the overflow error and the cache (entries and
usage counters) is left exactly as it was, the monitor reporting OK. -/
theorem C6_overflow_error (mon : Nat → Bool) (freq : Nat) (n cur : Int) (uc : Bool)
    (fuel steps : Nat) (seq : List Int) (st : EngineState)
    (hmon : ∀ i, mon i = true) (hC : CacheOK st)
    (hodd : cur % 2 = 1) (hover : MAXSAFE < (cur * 3).natAbs) :
    (calcLoop mon freq n uc (fuel + 1) cur steps seq st).1 = .err .overflow ∧
      (calcLoop mon freq n uc (fuel + 1) cur steps seq st).2.lru = st.lru := by
  have hc1 : cur ≠ 1 := by
    rintro rfl
    norm_num [MAXSAFE] at hover
  have hodd' : ¬cur % 2 = 0 := by omega
  have hsm : safeMultiply cur 3 = none := by
    unfold safeMultiply
    rw [if_pos hover]
  simp only [calcLoop, if_neg hc1]
  set st1 := if freq ≠ 0 ∧ steps % freq = 0 then stMemCheck mon st else st with hst1
  have hst1c : st1.lru = st.lru := by
    rw [hst1]
    by_cases hmc : freq ≠ 0 ∧ steps % freq = 0
    · rw [if_pos hmc]
      exact stMemCheck_lru_ok hmon st
    · rw [if_neg hmc]
  have hmiss : (cacheGet cur st1.lru).1 = none := by
    unfold cacheGet
    rcases hf : assocFind cur st1.lru.cache with _ | v
    · rfl
    · exfalso
      rw [hst1c] at hf
      obtain ⟨_, f, hp⟩ := hC cur v (assocFind_mem hf)
      cases f with
      | zero => exact absurd hp (by simp [pureLoop])
      | succ g =>
        simp only [pureLoop, if_neg hc1, if_neg hodd', hsm] at hp
        exact COutcome.noConfusion hp
  have hscrut : (if uc then (cacheGet cur st1.lru).1 else none) = (none : Option CResult) := by
    cases uc
    · rfl
    · exact hmiss
  rw [hscrut]
  rw [if_neg hodd']
  simp only [hsm]
  exact ⟨by trivial, hst1c⟩

/-- Witness for C6 at the largest odd safe integer as the synthetic current
value, on a fresh engine. -/
theorem C6_overflow_error_w :
    (∀ i, mon0 i = true) ∧ CacheOK (initState 40000) ∧
      (9007199254740991 : Int) % 2 = 1 ∧ MAXSAFE < ((9007199254740991 : Int) * 3).natAbs ∧
      (calcLoop mon0 1000 27 true (5 + 1) 9007199254740991 3 [27] (initState 40000)).1 =
        .err .overflow ∧
      (calcLoop mon0 1000 27 true (5 + 1) 9007199254740991 3 [27] (initState 40000)).2.lru =
        (initState 40000).lru := by
  have hC : CacheOK (initState 40000) := by
    intro k v h
    exact absurd h (List.not_mem_nil _)
  have h := C6_overflow_error mon0 1000 27 9007199254740991 true 5 3 [27] (initState 40000)
    (fun _ => rfl) hC (by decide) (by decide)
  exact ⟨fun _ => rfl, hC, by decide, by decide, h.1, h.2⟩

/-! Claim C7: the batch tiling of `generateRange`. -/

theorem generateRange_eq {B : Nat} {s e : Int} (hB : 1 ≤ B) (hse : s ≤ e) :
    generateRange B s e = (s, min (s + (B : Int) - 1) e) :: generateRange B (s + (B : Int)) e := by
  rw [generateRange, dif_pos ⟨hB, hse⟩]

theorem generateRange_nil {B : Nat} {s e : Int} (hse : e < s) :
    generateRange B s e = [] := by
  rw [generateRange, dif_neg]
  rintro ⟨_, h⟩
  omega

theorem tiles_aux (B : Nat) (hB : 1 ≤ B) :
    ∀ (k : Nat) (s e : Int), (e + 1 - s).toNat ≤ k → s ≤ e → TilesSpec B s e := by
  intro k
  induction k with
  | zero =>
    intro s e hk hse
    exfalso
    omega
  | succ k ih =>
    intro s e hk hse
    by_cases hnext : s + (B : Int) ≤ e
    · -- a full first batch followed by more batches
      have hmin : min (s + (B : Int) - 1) e = s + (B : Int) - 1 := by omega
      have hrec := ih (s + (B : Int)) e (by omega) hnext
      unfold TilesSpec at hrec ⊢
      obtain ⟨ih1, ih2, ih3, ih4, ih5, ih6⟩ := hrec
      have htail_ne : generateRange B (s + (B : Int)) e ≠ [] := by
        intro hnil
        rw [hnil] at ih1
        exact Option.noConfusion ih1
      obtain ⟨q, rest, htq⟩ := List.exists_cons_of_ne_nil htail_ne
      rw [generateRange_eq hB hse]
      refine ⟨rfl, ?_, ?_, ?_, ?_, ?_⟩
      · intro p hp
        rcases List.mem_cons.mp hp with hpe | hp
        · cases hpe
          show s ≤ min (s + (B : Int) - 1) e
          omega
        · exact ih2 p hp
      · rw [List.chain'_cons']
        refine ⟨?_, ih3⟩
        intro y hy
        rw [ih1] at hy
        cases hy
        show s + (B : Int) = min (s + (B : Int) - 1) e + 1
        omega
      · intro x
        constructor
        · rintro ⟨p, hp, hx1, hx2⟩
          rcases List.mem_cons.mp hp with hpe | hp
          · cases hpe
            have hx2' : x ≤ min (s + (B : Int) - 1) e := hx2
            have hx1' : s ≤ x := hx1
            omega
          · have := (ih4 x).mp ⟨p, hp, hx1, hx2⟩
            omega
        · intro hx
          by_cases hcut : x ≤ s + (B : Int) - 1
          · refine ⟨(s, min (s + (B : Int) - 1) e), List.mem_cons_self _ _, hx.1, ?_⟩
            show x ≤ min (s + (B : Int) - 1) e
            omega
          · obtain ⟨p, hp, h1, h2⟩ := (ih4 x).mpr ⟨by omega, hx.2⟩
            exact ⟨p, List.mem_cons_of_mem _ hp, h1, h2⟩
      · rw [htq, List.dropLast_cons₂]
        rw [htq] at ih5
        intro p hp
        rcases List.mem_cons.mp hp with hpe | hp
        · cases hpe
          show min (s + (B : Int) - 1) e + 1 = s + (B : Int)
          omega
        · exact ih5 p hp
      · rw [htq, List.getLast?_cons_cons]
        rw [htq] at ih6
        intro p hp
        exact ih6 p hp
    · -- the final, possibly short batch
      have hmin : min (s + (B : Int) - 1) e = e := by omega
      unfold TilesSpec
      rw [generateRange_eq hB hse, generateRange_nil (by omega)]
      refine ⟨rfl, ?_, ?_, ?_, ?_, ?_⟩
      · intro p hp
        rcases List.mem_cons.mp hp with hpe | hp
        · cases hpe
          show s ≤ min (s + (B : Int) - 1) e
          omega
        · exact absurd hp (List.not_mem_nil p)
      · exact List.chain'_singleton _
      · intro x
        constructor
        · rintro ⟨p, hp, hx1, hx2⟩
          rcases List.mem_cons.mp hp with hpe | hp
          · cases hpe
            have hx2' : x ≤ min (s + (B : Int) - 1) e := hx2
            have hx1' : s ≤ x := hx1
            omega
          · exact absurd hp (List.not_mem_nil p)
        · intro hx
          refine ⟨(s, min (s + (B : Int) - 1) e), List.mem_cons_self _ _, hx.1, ?_⟩
          show x ≤ min (s + (B : Int) - 1) e
          omega
      · intro p hp
        simp at hp
      · intro p hp
        simp only [List.getLast?_singleton] at hp
        cases hp
        show min (s + (B : Int) - 1) e + 1 ≤ s + (B : Int)
        omega

/-- Claim C7: for `start ≤ end` and batch size `B ≥ 1`, `generateRange` tiles
the interval exactly: the first batch is `[start, min(start + B - 1, end)]`,
batches are nonempty, contiguous and non-overlapping, their union is exactly
`[start, end]`, every batch but the last has length exactly `B`, and the last
has length at most `B`. -/
theorem C7_range_tiling (B : Nat) (s e : Int) (hB : 1 ≤ B) (hse : s ≤ e) : TilesSpec B s e :=
  tiles_aux B hB (e + 1 - s).toNat s e le_rfl hse

/-- Witness for C7 at batch size 3 over the interval from 0 to 7. -/
theorem C7_range_tiling_w : 1 ≤ 3 ∧ (0 : Int) ≤ 7 ∧ TilesSpec 3 0 7 :=
  ⟨by decide, by decide, C7_range_tiling 3 0 7 (by decide) (by decide)⟩

/-! The cache-correctness invariant `CacheOK` and its preservation by every
engine operation. -/

theorem cacheOK_initState (cap : Nat) : CacheOK (initState cap) := by
  intro k v h
  exact absurd h (List.not_mem_nil _)

theorem cacheOK_stClear (st : EngineState) : CacheOK (stClear st) := by
  intro k v h
  exact absurd h (List.not_mem_nil _)

theorem cacheOK_stPoll {st : EngineState} (h : CacheOK st) : CacheOK (stPoll st) := h

theorem cacheOK_stMemCheck {st : EngineState} (h : CacheOK st) (mon : Nat → Bool) :
    CacheOK (stMemCheck mon st) := by
  unfold stMemCheck
  by_cases hm : mon st.monIdx
  · rw [if_pos hm]
    exact h
  · rw [if_neg hm]
    intro k v hkv
    exact absurd hkv (List.not_mem_nil _)

theorem cacheOK_memCheckIf (mon : Nat → Bool) (freq steps : Nat) {st : EngineState}
    (h : CacheOK st) :
    CacheOK (if freq ≠ 0 ∧ steps % freq = 0 then stMemCheck mon st else st) := by
  by_cases hmc : freq ≠ 0 ∧ steps % freq = 0
  · rw [if_pos hmc]
    exact cacheOK_stMemCheck h mon
  · rw [if_neg hmc]
    exact h

theorem cacheOK_stSet {st : EngineState} (h : CacheOK st) {k : Int} {v : CResult}
    (hv : EntrySpec k v) : CacheOK (stSet k v st) := by
  intro a b hab
  have hab' :
      (a, b) ∈ mapSet k v
        (if st.lru.maxSize ≤ st.lru.cache.length then evictLeastUsed st.lru else st.lru).cache :=
    hab
  rcases mem_mapSet hab' with ⟨rfl, rfl⟩ | hmem
  · exact hv
  · have hsub : (a, b) ∈ st.lru.cache := by
      by_cases hfull : st.lru.maxSize ≤ st.lru.cache.length
      · rw [if_pos hfull] at hmem
        unfold evictLeastUsed at hmem
        rcases hmu : minUsage st.lru.usage with _ | ⟨m, cnt⟩
        · rw [hmu] at hmem
          exact hmem
        · simp only [hmu] at hmem
          exact (mapDelete_sublist _ _).subset hmem
      · rw [if_neg hfull] at hmem
        exact hmem
    exact h a b hsub

theorem cacheOK_after_get {st : EngineState} (h : CacheOK st) (k : Int) :
    CacheOK { st with lru := (cacheGet k st.lru).2 } := by
  intro a b hab
  have hab' : (a, b) ∈ (cacheGet k st.lru).2.cache := hab
  rw [cache_cacheGet] at hab'
  exact h a b hab'

theorem calcLoop_cacheOK (mon : Nat → Bool) (freq : Nat) (n : Int) (uc : Bool) (hn : 1 ≤ n) :
    ∀ (fuel : Nat) (cur : Int) (steps : Nat) (seq : List Int) (st : EngineState),
      CacheOK st →
      (∀ g r0, pureLoop g cur steps seq = .ok r0 → ∃ g2, pureLoop g2 n 0 [n] = .ok r0) →
      CacheOK (calcLoop mon freq n uc fuel cur steps seq st).2 := by
  intro fuel
  induction fuel with
  | zero =>
    intro cur steps seq st hC _
    exact hC
  | succ f ih =>
    intro cur steps seq st hC hcont
    by_cases hc : cur = 1
    · subst hc
      simp only [calcLoop, if_pos rfl]
      cases uc
      · exact hC
      · exact cacheOK_stSet hC ⟨hn, hcont 1 ⟨steps, seq, false⟩ (by simp [pureLoop])⟩
    · simp only [calcLoop, if_neg hc]
      have hC1 : CacheOK (if freq ≠ 0 ∧ steps % freq = 0 then stMemCheck mon st else st) :=
        cacheOK_memCheckIf mon freq steps hC
      set st1 := if freq ≠ 0 ∧ steps % freq = 0 then stMemCheck mon st else st with hst1
      rcases hget : (if uc then (cacheGet cur st1.lru).1 else none) with _ | v
      · simp only [hget]
        by_cases h2 : cur % 2 = 0
        · rw [if_pos h2]
          by_cases hg : MAXSAFE < steps + 1
          · rw [if_pos hg]
            exact hC1
          · rw [if_neg hg]
            refine ih _ _ _ _ hC1 ?_
            intro g r0 hg0
            refine hcont (g + 1) r0 ?_
            simp only [pureLoop, if_neg hc, if_pos h2, if_neg hg]
            exact hg0
        · rw [if_neg h2]
          rcases hsm : safeMultiply cur 3 with _ | p
          · simp only [hsm]
            exact hC1
          · simp only [hsm]
            by_cases hg : MAXSAFE < steps + 1
            · rw [if_pos hg]
              exact hC1
            · rw [if_neg hg]
              refine ih _ _ _ _ hC1 ?_
              intro g r0 hg0
              refine hcont (g + 1) r0 ?_
              simp only [pureLoop, if_neg hc, if_neg h2, hsm, if_neg hg]
              exact hg0
      · simp only [hget]
        exact cacheOK_after_get hC1 cur

theorem calcSeq_cacheOK (mon : Nat → Bool) (freq : Nat) (n : Int) (uc : Bool) (fuel : Nat)
    (st : EngineState) (hC : CacheOK st) : CacheOK (calcSeq mon freq n uc fuel st).2 := by
  by_cases hn : n < 1
  · simp only [calcSeq, if_pos hn]
    exact hC
  · simp only [calcSeq, if_neg hn]
    rcases hget : (if uc then (cacheGet n st.lru).1 else none) with _ | v
    · simp only [hget]
      exact calcLoop_cacheOK mon freq n uc (by omega) fuel n 0 [n] st hC (fun g r0 h => ⟨g, h⟩)
    · simp only [hget]
      exact cacheOK_after_get hC n

/-- Every state reachable by the engine's own operations has a cache whose
entries all satisfy `EntrySpec`: each stored pair is exactly what the raw
loop computes from its key. -/
theorem reachable_cacheOK {mon : Nat → Bool} {freq cap : Nat} {st : EngineState}
    (h : Reachable mon freq cap st) : CacheOK st := by
  induction h with
  | init => exact cacheOK_initState cap
  | calcStep n uc fuel st _ ih => exact calcSeq_cacheOK mon freq n uc fuel st ih
  | tick st _ ih => exact cacheOK_stMemCheck ih mon
  | clearStep st _ ih => exact cacheOK_stClear st

/-! Claim C1: the shape of every returned trajectory. -/

theorem calcLoop_ok_inv (mon : Nat → Bool) (freq : Nat) (n : Int) (uc : Bool) :
    ∀ (fuel : Nat) (cur : Int) (steps : Nat) (seq : List Int) (st : EngineState) (r : CResult),
      CacheOK st → seq.getLast? = some cur → seq.length = steps + 1 →
      (calcLoop mon freq n uc fuel cur steps seq st).1 = .ok r →
      r.sequence.head? = seq.head? ∧ r.sequence.getLast? = some 1 ∧
        r.sequence.length = r.steps + 1 := by
  intro fuel
  induction fuel with
  | zero =>
    intro cur steps seq st r _ _ _ h
    exact absurd h (by simp [calcLoop])
  | succ f ih =>
    intro cur steps seq st r hC hlast hlen h
    have hne : seq ≠ [] := by
      intro hs
      rw [hs] at hlast
      simp at hlast
    by_cases hc : cur = 1
    · subst hc
      simp only [calcLoop, if_pos rfl] at h
      cases h
      exact ⟨rfl, hlast, hlen⟩
    · simp only [calcLoop, if_neg hc] at h
      have hC1 : CacheOK (if freq ≠ 0 ∧ steps % freq = 0 then stMemCheck mon st else st) :=
        cacheOK_memCheckIf mon freq steps hC
      set st1 := if freq ≠ 0 ∧ steps % freq = 0 then stMemCheck mon st else st with hst1
      rcases hget : (if uc then (cacheGet cur st1.lru).1 else none) with _ | v
      · simp only [hget] at h
        by_cases h2 : cur % 2 = 0
        · rw [if_pos h2] at h
          have hg : ¬MAXSAFE < steps + 1 := by
            intro hg
            rw [if_pos hg] at h
            exact COutcome.noConfusion h
          rw [if_neg hg] at h
          obtain ⟨ha, hb, hcl⟩ := ih _ _ _ _ _ hC1 (List.getLast?_concat _)
            (by simp [hlen]) h
          refine ⟨?_, hb, hcl⟩
          rw [ha]
          exact head?_append_left _ hne
        · rw [if_neg h2] at h
          rcases hsm : safeMultiply cur 3 with _ | p
          · simp only [hsm] at h
            exact absurd h (fun hh => COutcome.noConfusion hh)
          · simp only [hsm] at h
            have hg : ¬MAXSAFE < steps + 1 := by
              intro hg
              rw [if_pos hg] at h
              exact COutcome.noConfusion h
            rw [if_neg hg] at h
            obtain ⟨ha, hb, hcl⟩ := ih _ _ _ _ _ hC1 (List.getLast?_concat _)
              (by simp [hlen]) h
            refine ⟨?_, hb, hcl⟩
            rw [ha]
            exact head?_append_left _ hne
      · simp only [hget] at h
        cases h
        have huc : (cacheGet cur st1.lru).1 = some v := by
          cases uc
          · exact absurd hget (by simp)
          · exact hget
        have hfa : assocFind cur st1.lru.cache = some v := by
          rw [← cacheGet_fst]
          exact huc
        obtain ⟨_, fv, hpv⟩ := hC1 cur v (assocFind_mem hfa)
        obtain ⟨t, hv1, hv2, _, hv4, hv5⟩ := pure_inv fv cur 0 [cur] _ hpv rfl
        have ht_ne : t ≠ [] := by
          intro hterm
          rw [hterm, List.append_nil] at hv1
          rw [hv1] at hv4
          simp at hv4
          exact hc hv4
        have hdrop : v.sequence.drop 1 = t := by
          rw [hv1]
          rfl
        refine ⟨?_, ?_, ?_⟩
        · show (seq ++ v.sequence.drop 1).head? = seq.head?
          exact head?_append_left _ hne
        · show (seq ++ v.sequence.drop 1).getLast? = some 1
          rw [hdrop, getLast?_append_right ht_ne, ← getLast?_append_right (l := [cur]) ht_ne,
            ← hv1]
          exact hv4
        · show (seq ++ v.sequence.drop 1).length = steps + v.steps + 1
          rw [hdrop, List.length_append, hlen, hv2]
          simp
          omega

/-- Claim C1: from any reachable engine state, whenever
`calculateSequence(n, useCache)` returns a trajectory (no error, for a
positive integer `n`), the trajectory starts at `n`, ends at `1`, and its
sequence length is exactly `steps + 1`. -/
theorem C1_trajectory_shape (monR mon : Nat → Bool) (freqR freq cap : Nat) (n : Int)
    (uc : Bool) (fuel : Nat) (st : EngineState) (r : CResult)
    (hre : Reachable monR freqR cap st) (hn : 1 ≤ n)
    (hok : (calcSeq mon freq n uc fuel st).1 = .ok r) :
    r.sequence.head? = some n ∧ r.sequence.getLast? = some 1 ∧
      r.sequence.length = r.steps + 1 := by
  have hC : CacheOK st := reachable_cacheOK hre
  have hn' : ¬n < 1 := by omega
  simp only [calcSeq, if_neg hn'] at hok
  rcases hget : (if uc then (cacheGet n st.lru).1 else none) with _ | v
  · simp only [hget] at hok
    obtain ⟨ha, hb, hcl⟩ := calcLoop_ok_inv mon freq n uc fuel n 0 [n] st r hC rfl rfl hok
    exact ⟨ha, hb, hcl⟩
  · simp only [hget] at hok
    cases hok
    have huc : (cacheGet n st.lru).1 = some v := by
      cases uc
      · exact absurd hget (by simp)
      · exact hget
    have hfa : assocFind n st.lru.cache = some v := by
      rw [← cacheGet_fst]
      exact huc
    obtain ⟨_, fv, hpv⟩ := hC n v (assocFind_mem hfa)
    obtain ⟨t, hv1, hv2, _, hv4, hv5⟩ := pure_inv fv n 0 [n] _ hpv rfl
    refine ⟨?_, hv4, ?_⟩
    · show v.sequence.head? = some n
      rw [hv5]
      rfl
    · show v.sequence.length = v.steps + 1
      rw [hv1, hv2]
      simp

/-- Witness for C1: `calculateSequence(6, false)` on a fresh engine. -/
theorem C1_trajectory_shape_w :
    Reachable mon0 1000 40000 (initState 40000) ∧ (1 : Int) ≤ 6 ∧
      (calcSeq mon0 1000 6 false 20 (initState 40000)).1 =
        .ok ⟨8, [6, 3, 10, 5, 16, 8, 4, 2, 1], false⟩ ∧
      ([6, 3, 10, 5, 16, 8, 4, 2, 1] : List Int).head? = some 6 ∧
      ([6, 3, 10, 5, 16, 8, 4, 2, 1] : List Int).getLast? = some 1 ∧
      ([6, 3, 10, 5, 16, 8, 4, 2, 1] : List Int).length = 8 + 1 := by
  have hok : (calcSeq mon0 1000 6 false 20 (initState 40000)).1 =
      .ok ⟨8, [6, 3, 10, 5, 16, 8, 4, 2, 1], false⟩ := by decide
  have h := C1_trajectory_shape mon0 mon0 1000 1000 40000 6 false 20 (initState 40000)
    ⟨8, [6, 3, 10, 5, 16, 8, 4, 2, 1], false⟩ Reachable.init (by decide) hok
  exact ⟨Reachable.init, by decide, hok, h.1, h.2.1, h.2.2⟩

/-! Claim C2: cached and uncached runs agree. -/

theorem calcLoop_ok_vs_pure (mon : Nat → Bool) (freq : Nat) (n : Int) :
    ∀ (fuel f2 : Nat) (cur : Int) (steps : Nat) (seq : List Int)
      (st : EngineState) (r r2 : CResult),
      CacheOK st →
      (calcLoop mon freq n true fuel cur steps seq st).1 = .ok r →
      pureLoop f2 cur steps seq = .ok r2 →
      r.steps = r2.steps ∧ r.sequence = r2.sequence := by
  intro fuel
  induction fuel with
  | zero =>
    intro f2 cur steps seq st r r2 _ h _
    exact absurd h (by simp [calcLoop])
  | succ f ih =>
    intro f2 cur steps seq st r r2 hC h hp
    by_cases hc : cur = 1
    · subst hc
      simp only [calcLoop, if_pos rfl] at h
      cases h
      cases f2 with
      | zero => exact absurd hp (by simp [pureLoop])
      | succ g =>
        simp only [pureLoop, if_pos rfl] at hp
        cases hp
        exact ⟨rfl, rfl⟩
    · simp only [calcLoop, if_neg hc, if_true] at h
      have hC1 : CacheOK (if freq ≠ 0 ∧ steps % freq = 0 then stMemCheck mon st else st) :=
        cacheOK_memCheckIf mon freq steps hC
      set st1 := if freq ≠ 0 ∧ steps % freq = 0 then stMemCheck mon st else st with hst1
      rcases hfa : assocFind cur st1.lru.cache with _ | v
      · have hget : (cacheGet cur st1.lru).1 = (none : Option CResult) := by
          rw [cacheGet_fst]
          exact hfa
        simp only [hget] at h
        cases f2 with
        | zero => exact absurd hp (by simp [pureLoop])
        | succ g =>
          simp only [pureLoop, if_neg hc] at hp
          by_cases h2 : cur % 2 = 0
          · rw [if_pos h2] at h hp
            have hg : ¬MAXSAFE < steps + 1 := by
              intro hg
              rw [if_pos hg] at h
              exact COutcome.noConfusion h
            rw [if_neg hg] at h hp
            exact ih g _ _ _ _ _ _ hC1 h hp
          · rw [if_neg h2] at h hp
            rcases hsm : safeMultiply cur 3 with _ | p
            · simp only [hsm] at h
              exact absurd h (fun hh => COutcome.noConfusion hh)
            · simp only [hsm] at h hp
              have hg : ¬MAXSAFE < steps + 1 := by
                intro hg
                rw [if_pos hg] at h
                exact COutcome.noConfusion h
              rw [if_neg hg] at h hp
              exact ih g _ _ _ _ _ _ hC1 h hp
      · have hget : (cacheGet cur st1.lru).1 = some v := by
          rw [cacheGet_fst]
          exact hfa
        simp only [hget] at h
        cases h
        obtain ⟨_, fv, hpv⟩ := hC1 cur v (assocFind_mem hfa)
        obtain ⟨t, a1, a2, a3, a4⟩ := pure_det fv f2 cur 0 steps [cur] seq _ _ hpv hp
        constructor
        · show steps + v.steps = r2.steps
          have : v.steps = t.length := by
            have := a3
            simpa using this
          rw [this, a4]
        · show seq ++ v.sequence.drop 1 = r2.sequence
          rw [a2, a1]
          rfl

/-- Claim C2: from any reachable cache state, when a cached and an uncached
`calculateSequence(n, ...)` run both return results, the two results carry
the same `steps` and the same `sequence`; moreover every entry stored in the
cache under a key `k` holds exactly the steps and sequence some uncached run
from `k` produces. The memory monitors are assumed to report OK throughout,
as the claim states (the proof does not even need it). -/
theorem C2_cached_uncached_agree (monR mon mon2 : Nat → Bool) (freqR freq freq2 cap : Nat)
    (n : Int) (fuel fuel2 : Nat) (st st2 : EngineState) (r r2 : CResult)
    (hre : Reachable monR freqR cap st)
    (hmon : ∀ i, mon i = true) (hmon2 : ∀ i, mon2 i = true)
    (h1 : (calcSeq mon freq n true fuel st).1 = .ok r)
    (h2 : (calcSeq mon2 freq2 n false fuel2 st2).1 = .ok r2) :
    (r.steps = r2.steps ∧ r.sequence = r2.sequence) ∧
      ∀ k v, (k, v) ∈ st.lru.cache →
        ∃ f st3, (calcSeq mon2 freq2 k false f st3).1 = .ok ⟨v.steps, v.sequence, false⟩ := by
  have hC : CacheOK st := reachable_cacheOK hre
  have hn : ¬n < 1 := by
    intro hn
    rw [calcSeq, if_pos hn] at h1
    exact absurd h1 (by simp)
  have hpure2 : pureLoop fuel2 n 0 [n] = .ok r2 := by
    rw [← calcSeq_uncached_fst mon2 freq2 n fuel2 st2 hn]
    exact h2
  constructor
  · simp only [calcSeq, if_neg hn, if_true] at h1
    rcases hfa : assocFind n st.lru.cache with _ | v
    · have hget : (cacheGet n st.lru).1 = (none : Option CResult) := by
        rw [cacheGet_fst]
        exact hfa
      simp only [hget] at h1
      exact calcLoop_ok_vs_pure mon freq n fuel fuel2 n 0 [n] st r r2 hC h1 hpure2
    · have hget : (cacheGet n st.lru).1 = some v := by
        rw [cacheGet_fst]
        exact hfa
      simp only [hget] at h1
      cases h1
      obtain ⟨_, fv, hpv⟩ := hC n v (assocFind_mem hfa)
      obtain ⟨t, a1, a2, a3, a4⟩ := pure_det fv fuel2 n 0 0 [n] [n] _ _ hpv hpure2
      constructor
      · show v.steps = r2.steps
        rw [a3, a4]
      · show v.sequence = r2.sequence
        rw [a1, a2]
  · intro k v hkv
    obtain ⟨hk1, fv, hpv⟩ := hC k v hkv
    refine ⟨fv, initState cap, ?_⟩
    rw [calcSeq_uncached_fst mon2 freq2 k fv (initState cap) (by omega)]
    exact hpv

/-- Witness for C2: cached and uncached runs of `calculateSequence(5, *)` on a
fresh engine. -/
theorem C2_cached_uncached_agree_w :
    Reachable mon0 1000 40000 (initState 40000) ∧
      (calcSeq mon0 1000 5 true 20 (initState 40000)).1 =
        .ok ⟨5, [5, 16, 8, 4, 2, 1], false⟩ ∧
      (calcSeq mon0 1000 5 false 20 (initState 40000)).1 =
        .ok ⟨5, [5, 16, 8, 4, 2, 1], false⟩ ∧
      ((5 : Nat) = 5 ∧ ([5, 16, 8, 4, 2, 1] : List Int) = [5, 16, 8, 4, 2, 1]) ∧
      (∀ k v, (k, v) ∈ (initState 40000).lru.cache →
        ∃ f st3, (calcSeq mon0 1000 k false f st3).1 = .ok ⟨v.steps, v.sequence, false⟩) := by
  have ha : (calcSeq mon0 1000 5 true 20 (initState 40000)).1 =
      .ok ⟨5, [5, 16, 8, 4, 2, 1], false⟩ := by decide
  have hb : (calcSeq mon0 1000 5 false 20 (initState 40000)).1 =
      .ok ⟨5, [5, 16, 8, 4, 2, 1], false⟩ := by decide
  have h := C2_cached_uncached_agree mon0 mon0 mon0 1000 1000 1000 40000 5 20 20
    (initState 40000) (initState 40000) ⟨5, [5, 16, 8, 4, 2, 1], false⟩
    ⟨5, [5, 16, 8, 4, 2, 1], false⟩ Reachable.init (fun _ => rfl) (fun _ => rfl) ha hb
  exact ⟨Reachable.init, ha, hb, h.1, h.2⟩

/-! Claim C4: what `processBatch` returns when an item fails. -/

theorem intRange_succ (s : Int) (n : Nat) : intRange s (n + 1) = s :: intRange (s + 1) n := by
  unfold intRange
  rw [List.range_succ_eq_map, List.map_cons, List.map_map]
  refine congrArg₂ List.cons (by simp) ?_
  apply List.map_congr_left
  intro a _
  simp only [Function.comp_apply]
  push_cast
  ring

theorem pbLoop_prefix (mon : Nat → Bool) (freq : Nat) (uc : Bool) (fuel : Nat) :
    ∀ (cnt : Nat) (i : Int) (st : EngineState) (res : List BEntry) (st2 : EngineState)
      (reason : Option CError),
      pbLoop mon freq uc fuel cnt i st = some (res, st2, reason) →
      res.map BEntry.number = intRange i res.length ∧ res.length ≤ cnt ∧
        (reason = none → res.length = cnt) ∧
        (∀ er, reason = some er → res.length < cnt ∧
          ∃ stm, (calcSeq mon freq (i + res.length) uc fuel stm).1 = .err er) := by
  intro cnt
  induction cnt with
  | zero =>
    intro i st res st2 reason h
    simp only [pbLoop, Option.some.injEq, Prod.mk.injEq] at h
    obtain ⟨h1, _, h3⟩ := h
    subst h1
    refine ⟨rfl, le_rfl, fun _ => rfl, ?_⟩
    intro er her
    rw [← h3] at her
    exact absurd her (by simp)
  | succ c ih =>
    intro i st res st2 reason h
    simp only [pbLoop] at h
    split at h
    · exact absurd h (by simp)
    · rename_i e stx heq
      simp only [Option.some.injEq, Prod.mk.injEq] at h
      obtain ⟨h1, _, h3⟩ := h
      subst h1
      refine ⟨rfl, by simp, ?_, ?_⟩
      · intro hnone
        rw [← h3] at hnone
        exact absurd hnone (by simp)
      · intro er her
        rw [← h3] at her
        have he : e = er := by
          simpa using her
        refine ⟨by simp, if freq ≠ 0 ∧ i % freq = 0 then stPoll st else st, ?_⟩
        have hzero : i + ((List.length ([] : List BEntry) : Nat) : Int) = i := by simp
        rw [hzero, heq]
        rw [he]
    · rename_i r stx heq
      split at h
      · exact absurd h (by simp)
      · rename_i out res' st3 reason' heq2
        simp only [Option.some.injEq, Prod.mk.injEq] at h
        obtain ⟨h1, _, h3⟩ := h
        subst h1
        obtain ⟨ia, ib, ic, id⟩ := ih (i + 1) stx res' st3 reason' heq2
        refine ⟨?_, ?_, ?_, ?_⟩
        · simp only [List.map_cons, List.length_cons, intRange_succ]
          rw [ia]
        · simp only [List.length_cons]
          omega
        · intro hnone
          rw [← h3] at hnone
          simp only [List.length_cons]
          rw [ic hnone]
        · intro er her
          rw [← h3] at her
          obtain ⟨hlt, stm, hstm⟩ := id er her
          refine ⟨by simp only [List.length_cons]; omega, stm, ?_⟩
          have harith : i + ((List.length (⟨i, r⟩ :: res') : Nat) : Int) =
              i + 1 + ((res'.length : Nat) : Int) := by
            simp only [List.length_cons]
            push_cast
            ring
          rw [harith]
          exact hstm

/-- Claim C4 as amended: `processBatch(start, end, useCache)` processes the
numbers in order and stops at the first one whose computation raises: the
returned rows are exactly the consecutive numbers from `start` up to (not
including) the first failing number, the whole range is covered exactly when
no error occurred, and when an error was caught the next number
`start + rows.length` is one whose computation fails with that error. Numbers
after the first failure are not processed, contrary to the claimed
skip-and-continue. -/
theorem C4_prefix_semantics (mon : Nat → Bool) (freq : Nat) (uc : Bool) (fuel : Nat)
    (s e : Int) (st : EngineState) (res : List BEntry) (st2 : EngineState)
    (reason : Option CError)
    (h : processBatch mon freq uc fuel s e st = some (res, st2, reason)) :
    res.map BEntry.number = intRange s res.length ∧ res.length ≤ (e + 1 - s).toNat ∧
      (reason = none → res.length = (e + 1 - s).toNat) ∧
      (∀ er, reason = some er → res.length < (e + 1 - s).toNat ∧
        ∃ stm, (calcSeq mon freq (s + res.length) uc fuel stm).1 = .err er) :=
  pbLoop_prefix mon freq uc fuel ((e + 1 - s).toNat) s st res st2 reason h

/-- Counterexample to claim C4: over the range `[0, 1]`, item 0 raises the
invalid-input error and `processBatch` returns no rows at all, although
`calculateSequence(1, false)` succeeds — the failing item is not skipped and
the remaining numbers are never processed. -/
theorem C4_cex_no_skip :
    processBatch mon0 1000 false 50 0 1 (initState 40000) =
      some ([], ⟨newCache 40000, 1⟩, some .invalidInput) ∧
      (calcSeq mon0 1000 1 false 50 (initState 40000)).1 = .ok ⟨0, [1], false⟩ := by
  constructor
  · decide
  · decide

/-- Witness for the amended C4 on the concrete failing batch `[0, 1]`. -/
theorem C4_prefix_semantics_w :
    processBatch mon0 1000 false 50 0 1 (initState 40000) =
      some ([], ⟨newCache 40000, 1⟩, some .invalidInput) ∧
      (([] : List BEntry).map BEntry.number = intRange 0 ([] : List BEntry).length ∧
        ([] : List BEntry).length ≤ ((1 : Int) + 1 - 0).toNat ∧
        ((some CError.invalidInput = none) → ([] : List BEntry).length = ((1 : Int) + 1 - 0).toNat) ∧
        (∀ er, some CError.invalidInput = some er →
          ([] : List BEntry).length < ((1 : Int) + 1 - 0).toNat ∧
          ∃ stm, (calcSeq mon0 1000 ((0 : Int) + (([] : List BEntry).length : Int)) false 50 stm).1 =
            .err er)) := by
  have hp : processBatch mon0 1000 false 50 0 1 (initState 40000) =
      some ([], ⟨newCache 40000, 1⟩, some .invalidInput) := by decide
  exact ⟨hp, C4_prefix_semantics mon0 1000 false 50 0 1 (initState 40000) []
    ⟨newCache 40000, 1⟩ (some .invalidInput) hp⟩

/-! Claim C8: the cache-hit count the harness folds into the report. -/

theorem countHits_cons (a : BEntry) (t : List BEntry) :
    countHits (a :: t) = (if a.result.cacheHit then 1 else 0) + countHits t := by
  unfold countHits
  cases hhit : a.result.cacheHit
  · simp [List.filter_cons, hhit]
  · simp [List.filter_cons, hhit]
    omega

theorem foldHits_cacheHits :
    ∀ (rs : List BEntry) (acc : BatchAcc),
      (foldHits acc rs).cacheHits = acc.cacheHits + countHits rs := by
  intro rs
  induction rs with
  | nil =>
    intro acc
    simp [foldHits, countHits]
  | cons a t ihh =>
    intro acc
    show (foldHits
        { acc with
          maxSteps := max acc.maxSteps a.result.steps
          cacheHits := if a.result.cacheHit then acc.cacheHits + 1 else acc.cacheHits }
        t).cacheHits = acc.cacheHits + countHits (a :: t)
    rw [ihh, countHits_cons]
    cases hhit : a.result.cacheHit
    · simp [hhit]
    · simp [hhit]
      omega

theorem updateMetrics_cacheHits (m : BatchAcc) (b : AvgMetrics) :
    (updateMetrics m b).cacheHits = m.cacheHits + countHits b.results := by
  show (foldHits
      { m with
        totalTime := m.totalTime + b.executionTime
        memoryProfile := m.memoryProfile ++ [b.memoryUsed]
        peakMemory := max m.peakMemory b.peakMemoryUsed }
      b.results).cacheHits = m.cacheHits + countHits b.results
  rw [foldHits_cacheHits]

/-- Counterexample to claim C8: with one hit-free sample followed by a sample
holding two cache hits, the mean hit count `calculateAverageMetrics` computes
is 1, but the count `updateMetrics` folds into the running report total is the
first sample's count, 0 — not the mean. -/
theorem C8_cex_not_mean :
    ¬(((updateMetrics ⟨0, [], 0, 0, 0, 0⟩
          (calculateAverageMetrics
            [⟨1, 1, []⟩,
              ⟨1, 1, [⟨1, ⟨0, [1], true⟩⟩, ⟨2, ⟨0, [1], true⟩⟩]⟩])).cacheHits : ℚ) =
        ((⟨0, [], 0, 0, 0, 0⟩ : BatchAcc).cacheHits : ℚ) +
          (calculateAverageMetrics
            [⟨1, 1, []⟩,
              ⟨1, 1, [⟨1, ⟨0, [1], true⟩⟩, ⟨2, ⟨0, [1], true⟩⟩]⟩]).cacheHits) := by
  intro heq
  have hl : (updateMetrics ⟨0, [], 0, 0, 0, 0⟩
      (calculateAverageMetrics
        [⟨1, 1, []⟩,
          ⟨1, 1, [⟨1, ⟨0, [1], true⟩⟩, ⟨2, ⟨0, [1], true⟩⟩]⟩])).cacheHits = 0 := rfl
  have hr : (calculateAverageMetrics
      [⟨1, 1, []⟩,
        ⟨1, 1, [(⟨1, ⟨0, [1], true⟩⟩ : BEntry), ⟨2, ⟨0, [1], true⟩⟩]⟩]).cacheHits = 1 := by
    norm_num [calculateAverageMetrics, countHits]
  rw [hl, hr] at heq
  norm_num at heq

/-- Claim C8 as amended: per batch, `updateMetrics` adds to the running
cache-hit total the number of `cacheHit` rows of the first sample
(`samples[0].results`, the representative row list `calculateAverageMetrics`
passes along); the per-sample arithmetic mean that `calculateAverageMetrics`
also computes is not what is folded into the report. -/
theorem C8_first_sample_fold (m : BatchAcc) (s0 : Sample) (rest : List Sample) :
    (updateMetrics m (calculateAverageMetrics (s0 :: rest))).cacheHits =
      m.cacheHits + countHits s0.results := by
  rw [updateMetrics_cacheHits]
  rfl

end Collatz
